import Mathlib

/-!
Shallow embedding of the rofi-unicode plugin core (src/lib.rs and src/config.rs).

The configuration-resolution algorithm, the arena builder and the navigation
state machine are translated directly from the Rust source.  External
collaborators (the pango markup parser, the RON syntax parser, the filesystem,
the environment and the clipboard process) are modelled as function parameters.
Machine indices are Nat; fallible code returns Except or Option.  The type
parameter A stands for the external pango attribute type.
-/

set_option maxHeartbeats 1000000

namespace RofiUnicode

/-- Models `ItemIndex` in src/lib.rs: the position of an item inside the arena,
as a list index into `Unicode::lists` plus a slot in that list's items. -/
structure ItemIndex where
  list : Nat
  index : Nat
deriving Repr, DecidableEq

namespace Config

mutual
/-- Models `config::Item` in src/config.rs (mutually recursive with
`config::Content`: a resolved item is a named leaf or a named submenu). -/
inductive Item (A : Type) : Type where
  | mk (name : String) (name_attributes : List A) (name_markup : String)
      (content : Content A) : Item A
/-- Models `config::Content` in src/config.rs. -/
inductive Content (A : Type) : Type where
  | text (t : String) : Content A
  | items (l : List (Item A)) : Content A
end

/-- Field accessor for `config::Item::name`. -/
def Item.name {A : Type} : Item A → String
  | .mk n _ _ _ => n

/-- Field accessor for `config::Item::name_attributes`. -/
def Item.name_attributes {A : Type} : Item A → List A
  | .mk _ a _ _ => a

/-- Field accessor for `config::Item::name_markup`. -/
def Item.name_markup {A : Type} : Item A → String
  | .mk _ _ m _ => m

/-- Field accessor for `config::Item::content`. -/
def Item.content {A : Type} : Item A → Content A
  | .mk _ _ _ c => c

end Config

/-- Models `Content` in src/lib.rs: an arena item is either clipboard text or
an integer reference to a child list in the arena. -/
inductive Content (A : Type) : Type where
  | text (t : String) : Content A
  | list (index : Nat) : Content A
deriving Repr, DecidableEq

/-- Models `Item` in src/lib.rs: one visible row of a menu level. -/
structure Item (A : Type) where
  name : String
  name_attributes : List A
  name_markup : String
  content : Content A
deriving Repr, DecidableEq

/-- Models `List` in src/lib.rs (named UList here because `List` is taken by
Lean): one menu level, with an optional back-reference to the item it was
spawned from. -/
structure UList (A : Type) where
  index : Option ItemIndex
  items : List (Item A)
deriving Repr, DecidableEq

/-- Default `UList` used to totalise arena indexing (the Rust source panics on
an out-of-bounds index; theorems only use in-bounds indices). -/
def emptyUList {A : Type} : UList A := ⟨none, []⟩

/-- Default `Item` used to totalise item indexing. -/
def dummyItem {A : Type} : Item A := ⟨"", [], "", .text ""⟩

/-- Models `Unicode` in src/lib.rs: the full arena plus the single mutable
field `active_list`. -/
structure Unicode (A : Type) where
  lists : List (UList A)
  active_list : Nat
deriving Repr, DecidableEq

/-- Models `register_items` in src/lib.rs, with the loop over `items` (which
in Rust is `items.into_iter().enumerate().map(...)`) written as the recursive
helper `register_go`.  The accumulator `lists` threads the `&mut Vec<List>`;
`list_index` and `i` identify the item slot a nested submenu is spawned from.
A nested submenu pushes a placeholder list, recursively registers its items,
then fills the placeholder in, exactly as the recursive Rust call does. -/
def register_go {A : Type} :
    List (Config.Item A) → List (UList A) → Nat → Nat → List (UList A) × List (Item A)
  | [], lists, _, _ => (lists, [])
  | .mk name attrs markup (.text t) :: rest, lists, list_index, i =>
    let r := register_go rest lists list_index (i + 1)
    (r.1, ⟨name, attrs, markup, .text t⟩ :: r.2)
  | .mk name attrs markup (.items nested) :: rest, lists, list_index, i =>
    let child_index := lists.length
    let lists1 := lists ++ [⟨some ⟨list_index, i⟩, []⟩]
    let rc := register_go nested lists1 child_index 0
    let lists2 := rc.1.set child_index ⟨some ⟨list_index, i⟩, rc.2⟩
    let rr := register_go rest lists2 list_index (i + 1)
    (rr.1, ⟨name, attrs, markup, .list child_index⟩ :: rr.2)
termination_by items _ _ _ => sizeOf items

/-- Models the body of `register_items` in src/lib.rs: push a placeholder list
with the given back-reference, register all items (spawning child lists), then
store the produced items into the pushed list.  Returns the new list's index. -/
def register_items {A : Type} (items : List (Config.Item A)) (lists : List (UList A))
    (index : Option ItemIndex) : List (UList A) × Nat :=
  let list_index := lists.length
  let lists1 := lists ++ [⟨index, []⟩]
  let r := register_go items lists1 list_index 0
  (r.1.set list_index ⟨index, r.2⟩, list_index)

/-- Models `Unicode::try_init` in src/lib.rs after `config::read` has produced
the resolved root items: build the arena from an empty vector and make the
returned root index the active list (the source asserts it is 0). -/
def try_init {A : Type} (config_root : List (Config.Item A)) : Unicode A :=
  let r := register_items config_root [] none
  ⟨r.1, r.2⟩

/-- Models `Unicode::active_list` (the method) in src/lib.rs. -/
def Unicode.activeList {A : Type} (u : Unicode A) : UList A :=
  u.lists.getD u.active_list emptyUList

/-- Models `Unicode::item` in src/lib.rs. -/
def Unicode.item {A : Type} (u : Unicode A) (i : Nat) : Item A :=
  u.activeList.items.getD i dummyItem

/-- Models `Mode::entries` in src/lib.rs. -/
def Unicode.entries {A : Type} (u : Unicode A) : Nat :=
  u.activeList.items.length

/-- Models `Mode::entry_attributes` in src/lib.rs. -/
def Unicode.entry_attributes {A : Type} (u : Unicode A) (line : Nat) : List A :=
  (u.item line).name_attributes

/-- Models `Mode::entry_content` in src/lib.rs: the name for a text leaf, the
name followed by a slash for a submenu. -/
def Unicode.entry_content {A : Type} (u : Unicode A) (line : Nat) : String :=
  match (u.item line).content with
  | .text _ => (u.item line).name
  | .list _ => (u.item line).name ++ "/"

/-- Models `Mode::completed` in src/lib.rs. -/
def Unicode.completed {A : Type} (u : Unicode A) (line : Nat) : String :=
  (u.item line).name

/-- Models `rofi_mode::Event` as consumed by `Unicode::react` (payloads the
source ignores are omitted). -/
inductive Event where
  | cancel
  | ok (selected : Nat)
  | complete (selected : Option Nat)
  | customInput
  | deleteEntry
  | customCommand
deriving Repr, DecidableEq

/-- Models `rofi_mode::Action`. -/
inductive Action where
  | exit
  | reload
deriving Repr, DecidableEq

/-- Models `Unicode::react` in src/lib.rs.  The host's mutable input box is
threaded as the `input` string; the external `clipboard_copy` process is a
parameter telling whether copying a given payload succeeds.  Returns the new
engine state, the new input text and the action given back to rofi. -/
def Unicode.react {A : Type} (clipboard_copy : String → Bool) (u : Unicode A)
    (event : Event) (input : String) : Unicode A × String × Action :=
  match event with
  | .cancel =>
    match u.activeList.index with
    | some index => ({ u with active_list := index.list }, "", .reload)
    | none => (u, input, .exit)
  | .ok selected =>
    match (u.item selected).content with
    | .text data =>
      if clipboard_copy data then (u, input, .exit) else (u, input, .reload)
    | .list index => ({ u with active_list := index }, input, .reload)
  | .complete (some selected) => (u, (u.item selected).name, .reload)
  | .complete none => (u, input, .reload)
  | .customInput => (u, input, .reload)
  | .deleteEntry => (u, input, .reload)
  | .customCommand => (u, input, .reload)

/-- Models the `while let` loop of `Unicode::message` in src/lib.rs, which
pushes a separator (when the accumulator is nonempty) and the spawning item's
markup, then follows the back-reference.  The Rust loop has no fuel; the fuel
argument makes the embedding total, and `Unicode.message` passes enough fuel
for every arena whose back-references strictly decrease (the loop diverges in
Rust on a cyclic arena, which construction never produces). -/
def message_go {A : Type} (lists : List (UList A)) :
    Nat → Option ItemIndex → List String → List String
  | 0, _, parts => parts
  | _ + 1, none, parts => parts
  | fuel + 1, some item_index, parts =>
    let parts1 := if parts.isEmpty then parts else parts ++ [" / "]
    let list := lists.getD item_index.list emptyUList
    let parts2 := parts1 ++ [(list.items.getD item_index.index dummyItem).name_markup]
    message_go lists fuel list.index parts2

/-- Models `Mode::message` in src/lib.rs: build the parts in current-to-root
order and concatenate them reversed. -/
def Unicode.message {A : Type} (u : Unicode A) : String :=
  String.join (message_go u.lists (u.lists.length + 1) u.activeList.index []).reverse

namespace Config

/-- Models a parsed RON document as a generic ordered value: the external
`ron` crate turns source text into such a value, and the repository's serde
`Deserialize` impls (embedded below) consume it.  Maps keep entries in
document order; keys may repeat. -/
inductive RonValue : Type where
  | str (s : String) : RonValue
  | seq (xs : List RonValue) : RonValue
  | map (entries : List (String × RonValue)) : RonValue

mutual
/-- Models `config::UnresolvedItems` in src/config.rs. -/
inductive UnresolvedItems : Type where
  | mk (extends_ : List String) (direct : List UnresolvedItem) : UnresolvedItems
/-- Models `config::UnresolvedItem` in src/config.rs. -/
inductive UnresolvedItem : Type where
  | mk (name : String) (content : UnresolvedContent) : UnresolvedItem
/-- Models `config::UnresolvedContent` in src/config.rs. -/
inductive UnresolvedContent : Type where
  | text (s : String) : UnresolvedContent
  | items (u : UnresolvedItems) : UnresolvedContent
end

/-- Field accessor for `UnresolvedItems::extends`. -/
def UnresolvedItems.extends_ : UnresolvedItems → List String
  | .mk e _ => e

/-- Field accessor for `UnresolvedItems::direct`. -/
def UnresolvedItems.direct : UnresolvedItems → List UnresolvedItem
  | .mk _ d => d

/-- Field accessor for `UnresolvedItem::name`. -/
def UnresolvedItem.name : UnresolvedItem → String
  | .mk n _ => n

/-- Field accessor for `UnresolvedItem::content`. -/
def UnresolvedItem.content : UnresolvedItem → UnresolvedContent
  | .mk _ c => c

/-- Models the `MapKey` helper enum inside `UnresolvedItems::deserialize`. -/
inductive MapKey : Type where
  | extends_
  | other (name : String)
deriving Repr, DecidableEq

/-- Models `MapKey`'s `Deserialize` impl: the literal key `extends` is the
reserved key, everything else is a display name. -/
def MapKey.deserialize (s : String) : MapKey :=
  if s = "extends" then .extends_ else .other s

/-- Models deserializing the elements of a `Vec<String>` in order, failing at
the first element that is not a string. -/
def deserializeStrings : List RonValue → Except String (List String)
  | [] => Except.ok []
  | v :: rest =>
    match v with
    | .str s =>
      match deserializeStrings rest with
      | .ok ss => Except.ok (s :: ss)
      | .error e => Except.error e
    | _ => Except.error "invalid type: expected a string"

/-- Models deserializing `Vec<String>` (the value of an `extends` key): a
sequence whose elements must all be strings. -/
def deserializeStringList : RonValue → Except String (List String)
  | .seq xs => deserializeStrings xs
  | _ => Except.error "invalid type: expected a sequence"

mutual
/-- Models the `visit_map` loop of `UnresolvedItems::deserialize`: each key is
classified by `MapKey.deserialize`; an `extends` value extends the running
`extends_` vector, any other key pushes a direct item. -/
def UnresolvedItems.visit_map :
    List (String × RonValue) → List String → List UnresolvedItem →
      Except String UnresolvedItems
  | [], extends_, direct => Except.ok (.mk extends_ direct)
  | (k, v) :: rest, extends_, direct =>
    match MapKey.deserialize k with
    | .extends_ =>
      match deserializeStringList v with
      | .error e => Except.error e
      | .ok exts => UnresolvedItems.visit_map rest (extends_ ++ exts) direct
    | .other name =>
      match UnresolvedContent.deserialize v with
      | .error e => Except.error e
      | .ok content => UnresolvedItems.visit_map rest extends_ (direct ++ [.mk name content])
termination_by entries _ _ => sizeOf entries

/-- Models `UnresolvedContent::deserialize` in src/config.rs: a string is a
leaf payload, a map is a nested node. -/
def UnresolvedContent.deserialize : RonValue → Except String UnresolvedContent
  | .str s => Except.ok (.text s)
  | .seq _ => Except.error "invalid type: expected a UTF-8 string or map of items"
  | .map entries =>
    match UnresolvedItems.visit_map entries [] [] with
    | .ok items => Except.ok (.items items)
    | .error e => Except.error e
termination_by v => sizeOf v
end

/-- Models `UnresolvedItems::deserialize` in src/config.rs: only a map is
accepted, and its entries are folded by `UnresolvedItems.visit_map`. -/
def UnresolvedItems.deserialize : RonValue → Except String UnresolvedItems
  | .map entries => UnresolvedItems.visit_map entries [] []
  | _ => Except.error "invalid type: expected a map of key names to values"

/-- Models `config::Base` in src/config.rs (the top-level document struct,
`#[serde(rename = "Config", deny_unknown_fields)]`). -/
structure Base where
  root : UnresolvedItems

/-- Models the derived field loop of `Base`'s `Deserialize` impl with
`deny_unknown_fields`: only the field `root` is accepted, any other key is an
unknown-field error, a repeated `root` is a duplicate-field error, and a
missing `root` is a missing-field error. -/
def Base.visit_map :
    List (String × RonValue) → Option UnresolvedItems → Except String Base
  | [], some root => Except.ok ⟨root⟩
  | [], none => Except.error "missing field root"
  | (k, v) :: rest, acc =>
    if k = "root" then
      match acc with
      | some _ => Except.error "duplicate field root"
      | none =>
        match UnresolvedItems.deserialize v with
        | .ok root => Base.visit_map rest (some root)
        | .error e => Except.error e
    else Except.error ("unknown field " ++ k)

/-- Models `Base`'s derived `Deserialize` impl: the document must be a map (a
RON struct body) and its fields go through `Base.visit_map`. -/
def Base.deserialize : RonValue → Except String Base
  | .map entries => Base.visit_map entries none
  | _ => Except.error "invalid type: expected struct Config"

/-- Models `std::path::Path::is_absolute` on unix: the path starts with a
slash. -/
def is_absolute (path : String) : Bool :=
  match path.data with
  | '/' :: _ => true
  | _ => false

/-- Models `std::path::PathBuf::push`/`join` on unix, at the precision the
claims need: joining onto an empty base keeps the relative path, joining an
absolute path replaces the base. -/
def pathJoin (base rel : String) : String :=
  if is_absolute rel then rel
  else if base = "" then rel
  else base ++ "/" ++ rel

/-- Models the result of one `std::fs::read_to_string` call; a filesystem is a
function from paths to this type. -/
inductive ReadResult : Type where
  | ok (contents : String) : ReadResult
  | notFound : ReadResult
  | otherError (msg : String) : ReadResult
deriving Repr, DecidableEq

/-- Models `config::Paths` in src/config.rs. -/
structure Paths where
  bases : List String
deriving Repr, DecidableEq

/-- Models `slice::split` on `b':'` as used by `Paths::from_env` (an empty
input yields one empty chunk, a trailing separator yields a trailing empty
chunk, exactly like the Rust byte split). -/
def splitOnChar (c : Char) : List Char → List (List Char)
  | [] => [[]]
  | x :: xs =>
    if x = c then [] :: splitOnChar c xs
    else
      match splitOnChar c xs with
      | h :: t => (x :: h) :: t
      | [] => [[x]]

/-- Models splitting `$XDG_CONFIG_DIRS` on colons (`.as_bytes().split(|&byte|
byte == b':')` in src/config.rs). -/
def splitColon (s : String) : List String :=
  (splitOnChar ':' s.data).map fun l => String.mk l

/-- Models `Paths::from_env` in src/config.rs: the user config home is
`$XDG_CONFIG_HOME`, falling back to `$HOME/.config`, and it is an error when
neither is set; the system dirs are `$XDG_CONFIG_DIRS` (default `/etc/xdg`)
split on colons; every base gets the `rofi-unicode` subdirectory appended. -/
def Paths.from_env (env : String → Option String) : Except String Paths :=
  match (env "XDG_CONFIG_HOME").orElse fun _ => (env "HOME").map (fun h => h ++ "/.config") with
  | none => Except.error "$HOME environment variable is not set"
  | some user_config =>
    let config_dirs := splitColon ((env "XDG_CONFIG_DIRS").getD "/etc/xdg")
    Except.ok ⟨(user_config :: config_dirs).map fun dir => pathJoin dir "rofi-unicode"⟩

/-- Models `Paths::config_home` in src/config.rs. -/
def Paths.config_home (p : Paths) : String := p.bases.getD 0 ""

/-- Models the search loop of `Paths::read_to_string` over the bases: the
first base where the join reads successfully wins, a not-found error moves on
to the next base, any other I/O error aborts, and exhausting the bases
produces the could-not-resolve error naming the reference. -/
def Paths.read_go (fs : String → ReadResult) (path : String) :
    List String → Except String String
  | [] => Except.error ("could not resolve path " ++ path)
  | base :: rest =>
    match fs (pathJoin base path) with
    | .ok s => Except.ok s
    | .notFound => Paths.read_go fs path rest
    | .otherError m => Except.error ("failed to read file " ++ path ++ ": " ++ m)

/-- Models `Paths::read_to_string` in src/config.rs: an absolute path is read
directly (any failure is reported), a relative path is tried against the
bases in order. -/
def Paths.read_to_string (fs : String → ReadResult) (paths : Paths) (path : String) :
    Except String String :=
  if is_absolute path then
    match fs path with
    | .ok s => Except.ok s
    | .notFound => Except.error ("failed to read file " ++ path ++ ": No such file or directory")
    | .otherError m => Except.error ("failed to read file " ++ path ++ ": " ++ m)
  else
    Paths.read_go fs path paths.bases

mutual
/-- Models `config::resolve` in src/config.rs: resolve the direct items first,
then each `extends` fragment in listed order, appending everything to the
`resolved` accumulator (the `&mut Vec<Item>`).  The external pango
`parse_markup` is the parameter `pm` (returning the attribute list and the
plain text), the filesystem is `fs`, and the external RON syntax parser is
`ron`.  The Rust recursion through included fragments is unbounded (a cyclic
include diverges); `fuel` bounds it in the embedding and is consumed only when
entering an included fragment. -/
def resolve {A : Type} (pm : String → Option (List A × String)) (fs : String → ReadResult)
    (ron : String → Except String RonValue) (paths : Paths) :
    Nat → UnresolvedItems → List (Config.Item A) → Except String (List (Config.Item A))
  | fuel, .mk extends_ direct, resolved =>
    match resolve_direct pm fs ron paths fuel direct resolved with
    | .error e => Except.error e
    | .ok resolved1 => resolve_extends pm fs ron paths fuel extends_ resolved1
termination_by fuel u _ => (fuel, sizeOf u)

/-- Models the first loop of `config::resolve` (over `unresolved.direct`):
nested submenus are resolved recursively into a fresh vector, then the item's
display markup is parsed; the resolved item is pushed onto the accumulator. -/
def resolve_direct {A : Type} (pm : String → Option (List A × String)) (fs : String → ReadResult)
    (ron : String → Except String RonValue) (paths : Paths) :
    Nat → List UnresolvedItem → List (Config.Item A) → Except String (List (Config.Item A))
  | _, [], resolved => Except.ok resolved
  | fuel, .mk name (.text t) :: rest, resolved =>
    match pm name with
    | none => Except.error ("item name " ++ name ++ " contains invalid markup")
    | some (attrs, plain) =>
      resolve_direct pm fs ron paths fuel rest (resolved ++ [.mk plain attrs name (.text t)])
  | fuel, .mk name (.items inner) :: rest, resolved =>
    match resolve pm fs ron paths fuel inner [] with
    | .error e => Except.error e
    | .ok inner_items =>
      match pm name with
      | none => Except.error ("item name " ++ name ++ " contains invalid markup")
      | some (attrs, plain) =>
        resolve_direct pm fs ron paths fuel rest
          (resolved ++ [.mk plain attrs name (.items inner_items)])
termination_by fuel items _ => (fuel, sizeOf items)

/-- Models the second loop of `config::resolve` (over `unresolved.extends`):
each include path is read through `Paths::read_to_string`, parsed as an
`UnresolvedItems` document and resolved recursively onto the accumulator. -/
def resolve_extends {A : Type} (pm : String → Option (List A × String)) (fs : String → ReadResult)
    (ron : String → Except String RonValue) (paths : Paths) :
    Nat → List String → List (Config.Item A) → Except String (List (Config.Item A))
  | _, [], resolved => Except.ok resolved
  | 0, include_path :: _, _ =>
    Except.error ("include recursion limit reached at " ++ include_path)
  | fuel + 1, include_path :: rest, resolved =>
    match Paths.read_to_string fs paths include_path with
    | .error e => Except.error e
    | .ok include_ron =>
      match ron include_ron with
      | .error e =>
        Except.error ("failed to deserialize included file " ++ include_path ++ ": " ++ e)
      | .ok v =>
        match UnresolvedItems.deserialize v with
        | .error e =>
          Except.error ("failed to deserialize included file " ++ include_path ++ ": " ++ e)
        | .ok included =>
          match resolve pm fs ron paths fuel included resolved with
          | .error e => Except.error e
          | .ok resolved1 => resolve_extends pm fs ron paths (fuel + 1) rest resolved1
termination_by fuel exts _ => (fuel, sizeOf exts)
end

/-- Models `config::Config` in src/config.rs. -/
structure ConfigData (A : Type) where
  root : List (Config.Item A)

/-- Models `config::read` in src/config.rs: build the search paths from the
environment, read `config.ron` from the config home directly, parse it as a
`Base` document (RON syntax via the external `ron` parameter, then the
embedded serde impls) and resolve its root node.  `fuel` bounds the include
recursion as in `resolve`. -/
def read {A : Type} (pm : String → Option (List A × String)) (fs : String → ReadResult)
    (ron : String → Except String RonValue) (env : String → Option String)
    (fuel : Nat) : Except String (ConfigData A) :=
  match Paths.from_env env with
  | .error e => Except.error e
  | .ok paths =>
    let config_ron_path := pathJoin paths.config_home "config.ron"
    match fs config_ron_path with
    | .notFound =>
      Except.error ("failed to read file " ++ config_ron_path ++ ": No such file or directory")
    | .otherError m => Except.error ("failed to read file " ++ config_ron_path ++ ": " ++ m)
    | .ok config_ron =>
      match ron config_ron with
      | .error e => Except.error ("failed to parse file " ++ config_ron_path ++ ": " ++ e)
      | .ok v =>
        match Base.deserialize v with
        | .error e => Except.error ("failed to parse file " ++ config_ron_path ++ ": " ++ e)
        | .ok base =>
          match resolve pm fs ron paths fuel base.root [] with
          | .error e => Except.error e
          | .ok root => Except.ok ⟨root⟩

end Config

/-- Number of steps a back-reference chain takes to reach the root, computed
with explicit fuel: `some d` means the chain starting at the given
back-reference reaches a `none` back-reference in exactly `d` steps within the
fuel; `none` means the fuel ran out (which on a well-formed arena never
happens with enough fuel). -/
def depthFrom {A : Type} (lists : List (UList A)) : Nat → Option ItemIndex → Option Nat
  | _, none => some 0
  | 0, some _ => none
  | fuel + 1, some ii => (depthFrom lists fuel (lists.getD ii.list emptyUList).index).map (· + 1)

/-- Nesting depth of the list at arena index `j`: the length of its
back-reference chain, with fuel `lists.length` (always sufficient on a
well-formed arena). -/
def listDepth {A : Type} (lists : List (UList A)) (j : Nat) : Option Nat :=
  depthFrom lists lists.length ((lists.getD j emptyUList).index)

/-- Well-formedness of a constructed arena, as the spec states it: the root
sits at index 0 with no back-reference, every other list has a back-reference
to a strictly earlier list and a valid item slot in it, and every
`child_list_index` stored in an item is in range and strictly greater than
the index of the holding list. -/
structure ArenaWF {A : Type} (lists : List (UList A)) : Prop where
  root_none : (lists.getD 0 emptyUList).index = none
  nonroot_some : ∀ j, 0 < j → j < lists.length →
    ((lists.getD j emptyUList).index).isSome = true
  back_lt : ∀ j, j < lists.length → ∀ ii,
    (lists.getD j emptyUList).index = some ii → ii.list < j
  back_slot : ∀ j, j < lists.length → ∀ ii,
    (lists.getD j emptyUList).index = some ii →
      ii.index < (lists.getD ii.list emptyUList).items.length
  child_range : ∀ j, j < lists.length → ∀ it ∈ (lists.getD j emptyUList).items,
    ∀ c, it.content = Content.list c → j < c ∧ c < lists.length

/-- Ancestor display markups of a back-reference chain, in root-to-current
order, stated as an inductive relation (following the spec's description of
the breadcrumb: the item that spawned each list along the chain). -/
inductive AncestorChain {A : Type} (lists : List (UList A)) :
    Option ItemIndex → List String → Prop where
  | root : AncestorChain lists none []
  | step (ii : ItemIndex) (names : List String) :
      AncestorChain lists (lists.getD ii.list emptyUList).index names →
      AncestorChain lists (some ii)
        (names ++ [((lists.getD ii.list emptyUList).items.getD ii.index dummyItem).name_markup])

/-- Joining a list of names with a separator, as the spec words it for the
breadcrumb (empty string for no names). -/
def joinSep (sep : String) : List String → String
  | [] => ""
  | [n] => n
  | n :: rest => n ++ sep ++ joinSep sep rest

/-- Substring containment test, used to formalise an error message naming a
path or a base directory. -/
def strContains (s sub : String) : Bool :=
  (List.range (s.data.length + 1)).any fun i =>
    (s.data.drop i).take sub.data.length == sub.data

/-- Concrete two-level arena used by witnesses: a root whose only row is the
submenu `B`, which contains the text leaf `C` (payload `y`); the active list
is the submenu. -/
def exampleArena : Unicode Nat :=
  ⟨[⟨none, [⟨"B", [], "B", .list 1⟩]⟩, ⟨some ⟨0, 0⟩, [⟨"C", [], "C", .text "y"⟩]⟩], 1⟩

/-- Concrete filesystem used by witnesses: one absolute file, one file present
only under the second base, everything else missing. -/
def c6fs : String → Config.ReadResult := fun p =>
  if p = "/abs.ron" then .ok "A"
  else if p = "/b2/x.ron" then .ok "X"
  else .notFound

/-- Concrete environment used by witnesses. -/
def c6env : String → Option String := fun k =>
  if k = "XDG_CONFIG_HOME" then some "/home/u/cfg"
  else if k = "XDG_CONFIG_DIRS" then some "/etc/xdg:/opt/xdg"
  else none

/-- Concrete resolved configuration used by witnesses: a submenu `B` holding a
nested empty submenu `C`, followed by a leaf `A`. -/
def c2items : List (Config.Item Nat) :=
  [.mk "B" [] "B" (.items [.mk "C" [] "C" (.items [])]), .mk "A" [] "A" (.text "x")]

/-- Trivial markup parser used by witnesses: no markup, the plain text is the
raw name and the attribute list is empty. -/
def c1pm : String → Option (List Nat × String) := fun s => some ([], s)

/-- Filesystem used by the C1 witness: one absolute fragment file. -/
def c1fs : String → Config.ReadResult := fun p =>
  if p = "/f.ron" then .ok "FRAG" else .notFound

/-- RON syntax parser used by the C1 witness: the fragment text parses to a
map with the single leaf `Z`. -/
def c1ron : String → Except String Config.RonValue := fun s =>
  if s = "FRAG" then .ok (.map [("Z", .str "z")]) else .error "unparsable"

/-- Search paths used by the C1 witness. -/
def c1paths : Config.Paths := ⟨["/b1"]⟩

/-- Document used by the C9 witness: an `extends` key first, a display name
in the middle, and a second `extends` key last. -/
def c9entries : List (String × Config.RonValue) :=
  [("extends", .seq [.str "e1"]), ("A", .str "x"), ("extends", .seq [.str "e2"])]

/-- Default unresolved item used to totalise list indexing in statements. -/
def dfltUItem : Config.UnresolvedItem := .mk "" (.text "")

/-- Default resolved config item used to totalise list indexing in
statements. -/
def dfltCItem {A : Type} : Config.Item A := .mk "" [] "" (.text "")

/-- Relation between an unresolved item and the resolved item `config::resolve`
produces for it: the markup parses to the plain name and attributes, the
original markup is kept, a text payload is kept verbatim, and a nested node
resolves (from a fresh vector) to the submenu's item list. -/
def resolvesItem {A : Type} (pm : String → Option (List A × String))
    (fs : String → Config.ReadResult) (ron : String → Except String Config.RonValue)
    (paths : Config.Paths) (fuel : Nat)
    (ui : Config.UnresolvedItem) (ci : Config.Item A) : Prop :=
  ∃ attrs plain, pm ui.name = some (attrs, plain) ∧
    ci.name = plain ∧ ci.name_attributes = attrs ∧ ci.name_markup = ui.name ∧
    (match ui.content, ci.content with
     | .text t, .text s => s = t
     | .items inner, .items ris =>
       Config.resolve pm fs ron paths fuel inner [] = Except.ok ris
     | _, _ => False)

/-- Characterisation of one map-entry pass of `UnresolvedItems::deserialize`:
collect every `extends` value (in document order, concatenated) and every
other entry as a direct item (in document order), failing when any value
fails to deserialize.  Used to state what the embedded serde visitor
computes. -/
def collectEntries : List (String × Config.RonValue) →
    Option (List String × List Config.UnresolvedItem)
  | [] => some ([], [])
  | (k, v) :: rest =>
    if k = "extends" then
      match Config.deserializeStringList v, collectEntries rest with
      | .ok exts, some (es, ds) => some (exts ++ es, ds)
      | _, _ => none
    else
      match Config.UnresolvedContent.deserialize v, collectEntries rest with
      | .ok c, some (es, ds) => some (es, .mk k c :: ds)
      | _, _ => none

/-! ## Theorems -/

theorem exampleArena_wf : ArenaWF exampleArena.lists := by
  have hlen : exampleArena.lists.length = 2 := rfl
  constructor
  · rfl
  · intro j h0 hl
    rw [hlen] at hl
    interval_cases j
    rfl
  · intro j hl ii hii
    rw [hlen] at hl
    interval_cases j
    · simp [exampleArena, List.getD] at hii
    · simp [exampleArena, List.getD] at hii
      subst hii
      decide
  · intro j hl ii hii
    rw [hlen] at hl
    interval_cases j
    · simp [exampleArena, List.getD] at hii
    · simp [exampleArena, List.getD] at hii
      subst hii
      decide
  · intro j hl it hit c hc
    rw [hlen] at hl
    interval_cases j
    · simp [exampleArena, List.getD] at hit
      subst hit
      simp at hc
      omega
    · simp [exampleArena, List.getD] at hit
      subst hit
      simp at hc

/-- Claim C4: for every valid row of the active list, selecting a text leaf
never mutates the engine state (in particular `active_list`), returns `Exit`
when the clipboard copy succeeds and `Reload` (same list, same input) when it
fails; selecting a submenu row sets `active_list` to that submenu's arena
index and returns `Reload`. -/
theorem on_select_spec {A : Type} (clip : String → Bool) (u : Unicode A) (input : String)
    (i : Nat) (_hi : i < u.entries) :
    (∀ t, (u.item i).content = .text t →
      (clip t = true → u.react clip (.ok i) input = (u, input, .exit)) ∧
      (clip t = false → u.react clip (.ok i) input = (u, input, .reload))) ∧
    (∀ c, (u.item i).content = .list c →
      u.react clip (.ok i) input = (⟨u.lists, c⟩, input, .reload)) := by
  constructor
  · intro t ht
    constructor <;> intro hclip <;> simp [Unicode.react, ht, hclip]
  · intro c hc
    simp [Unicode.react, hc]

theorem on_select_spec_witness :
    (0 < exampleArena.entries) ∧
    exampleArena.react (fun _ => true) (.ok 0) "q" = (exampleArena, "q", .exit) := by
  refine ⟨by simp [exampleArena, Unicode.entries, Unicode.activeList], ?_⟩
  have h := on_select_spec (fun _ => true) exampleArena "q" 0
    (by simp [exampleArena, Unicode.entries, Unicode.activeList])
  exact (h.1 "y" (by simp [exampleArena, Unicode.item, Unicode.activeList, List.getD])).1 rfl

/-- Claim C7 counterexample: in the two-level example arena viewed from the
root, row 0 is the submenu `B`, and its rendered entry text is `B/` — the
stored `display_plain` with a slash appended — not the stored `display_plain`
itself, so rendering is not a pure pass-through for submenu rows. -/
theorem entry_content_not_passthrough :
    (0 < (Unicode.mk exampleArena.lists 0).entries) ∧
    (Unicode.mk exampleArena.lists 0).entry_content 0 = "B/" ∧
    ((Unicode.mk exampleArena.lists 0).item 0).name = "B" ∧
    (Unicode.mk exampleArena.lists 0).entry_content 0 ≠
      ((Unicode.mk exampleArena.lists 0).item 0).name := by
  refine ⟨?_, ?_, ?_, ?_⟩ <;>
    simp [exampleArena, Unicode.entries, Unicode.entry_content, Unicode.item,
      Unicode.activeList, List.getD]

/-- Claim C7 as amended: for every valid row, the rendered attributes are a
pass-through of the stored item's `display_attributes`, and the rendered text
is the stored `display_plain` for a text leaf but `display_plain` followed by
a slash for a submenu row. -/
theorem entry_render_spec {A : Type} (u : Unicode A) (i : Nat) (_hi : i < u.entries) :
    u.entry_attributes i = (u.item i).name_attributes ∧
    (∀ t, (u.item i).content = .text t → u.entry_content i = (u.item i).name) ∧
    (∀ c, (u.item i).content = .list c → u.entry_content i = (u.item i).name ++ "/") := by
  refine ⟨rfl, ?_, ?_⟩
  · intro t ht
    simp [Unicode.entry_content, ht]
  · intro c hc
    simp [Unicode.entry_content, hc]

theorem entry_render_spec_witness :
    (0 < exampleArena.entries) ∧
    exampleArena.entry_attributes 0 = (exampleArena.item 0).name_attributes ∧
    exampleArena.entry_content 0 = (exampleArena.item 0).name := by
  have hi : 0 < exampleArena.entries := by
    simp [exampleArena, Unicode.entries, Unicode.activeList]
  have h := entry_render_spec exampleArena 0 hi
  exact ⟨hi, h.1, (h.2.1 "y"
    (by simp [exampleArena, Unicode.item, Unicode.activeList, List.getD]))⟩

/-- Claim C10: the only events that change the pending input text are cancel
at a non-root list (clears it) and complete with a selected row (replaces it
with that row's plain name); selecting a leaf or a submenu, cancel at the
root, complete with no selection, custom input, delete-entry and
custom-command events all keep the input text; and the four events of the
ignored match arm also keep the active list and return `Reload`. -/
theorem react_input_spec {A : Type} (clip : String → Bool) (u : Unicode A) (input : String) :
    (∀ ii, u.activeList.index = some ii →
      u.react clip .cancel input = (⟨u.lists, ii.list⟩, "", .reload)) ∧
    (u.activeList.index = none → u.react clip .cancel input = (u, input, .exit)) ∧
    (∀ i, i < u.entries → u.react clip (.complete (some i)) input =
      (u, (u.item i).name, .reload)) ∧
    (∀ i, (u.react clip (.ok i) input).2.1 = input) ∧
    (u.react clip (.complete none) input = (u, input, .reload)) ∧
    (u.react clip .customInput input = (u, input, .reload)) ∧
    (u.react clip .deleteEntry input = (u, input, .reload)) ∧
    (u.react clip .customCommand input = (u, input, .reload)) := by
  refine ⟨?_, ?_, ?_, ?_, rfl, rfl, rfl, rfl⟩
  · intro ii hii
    simp [Unicode.react, hii]
  · intro h
    simp [Unicode.react, h]
  · intro i _
    simp [Unicode.react]
  · intro i
    cases hc : (u.item i).content with
    | text t => by_cases hcl : clip t <;> simp [Unicode.react, hc, hcl]
    | list c => simp [Unicode.react, hc]

theorem react_input_spec_witness :
    ((exampleArena.activeList.index = some ⟨0, 0⟩) ∧
      exampleArena.react (fun _ => true) .cancel "typed" =
        (⟨exampleArena.lists, 0⟩, "", .reload)) ∧
    ((0 < exampleArena.entries) ∧
      exampleArena.react (fun _ => true) (.complete (some 0)) "typed" =
        (exampleArena, "C", .reload)) := by
  have h := react_input_spec (fun _ => true) exampleArena "typed"
  have hidx : exampleArena.activeList.index = some ⟨0, 0⟩ := by
    simp [exampleArena, Unicode.activeList, List.getD]
  have hent : 0 < exampleArena.entries := by
    simp [exampleArena, Unicode.entries, Unicode.activeList]
  refine ⟨⟨hidx, h.1 ⟨0, 0⟩ hidx⟩, hent, ?_⟩
  have := h.2.2.1 0 hent
  rw [this]
  simp [exampleArena, Unicode.item, Unicode.activeList, List.getD]

theorem depthFrom_mono {A : Type} (lists : List (UList A)) :
    ∀ fuel fuel' idx d, fuel ≤ fuel' → depthFrom lists fuel idx = some d →
      depthFrom lists fuel' idx = some d := by
  intro fuel
  induction fuel with
  | zero =>
    intro fuel' idx d _ h
    cases idx with
    | none => simpa [depthFrom] using h
    | some ii => simp [depthFrom] at h
  | succ fuel ih =>
    intro fuel' idx d hle h
    cases idx with
    | none => simpa [depthFrom] using h
    | some ii =>
      obtain ⟨fuel'', rfl⟩ : ∃ f, fuel' = f + 1 := ⟨fuel' - 1, by omega⟩
      simp only [depthFrom] at h ⊢
      cases hrec : depthFrom lists fuel ((lists.getD ii.list emptyUList).index) with
      | none => rw [hrec] at h; simp at h
      | some d' =>
        rw [hrec] at h
        rw [ih fuel'' _ d' (by omega) hrec]
        exact h

theorem depth_total {A : Type} (lists : List (UList A))
    (hlt : ∀ j, j < lists.length → ∀ ii,
      (lists.getD j emptyUList).index = some ii → ii.list < j) :
    ∀ j, j < lists.length →
      ∃ d, d ≤ j ∧ depthFrom lists (j + 1) ((lists.getD j emptyUList).index) = some d := by
  intro j
  induction j using Nat.strong_induction_on with
  | _ j ih =>
    intro hj
    cases hidx : (lists.getD j emptyUList).index with
    | none => exact ⟨0, Nat.zero_le _, by simp [depthFrom]⟩
    | some ii =>
      have hii := hlt j hj ii hidx
      obtain ⟨d, hd, hdepth⟩ := ih ii.list hii (lt_trans hii hj)
      refine ⟨d + 1, by omega, ?_⟩
      have hstep : depthFrom lists j ((lists.getD ii.list emptyUList).index) = some d :=
        depthFrom_mono lists (ii.list + 1) j _ d (by omega) hdepth
      simp only [depthFrom]
      rw [hstep]
      rfl

/-- Claim C3: cancel at the root list (no back-reference) returns `Exit` and
leaves the state and input unchanged; cancel at any non-root list moves the
active list to the parent list index, clears the input text, returns `Reload`
and strictly decreases the nesting depth by exactly one. -/
theorem on_cancel_spec {A : Type} (clip : String → Bool) (u : Unicode A) (input : String)
    (hwf : ArenaWF u.lists) (hact : u.active_list < u.lists.length) :
    (u.activeList.index = none → u.react clip .cancel input = (u, input, .exit)) ∧
    (∀ ii, u.activeList.index = some ii →
      u.react clip .cancel input = (⟨u.lists, ii.list⟩, "", .reload) ∧
      ∃ d, listDepth u.lists ii.list = some d ∧
        listDepth u.lists u.active_list = some (d + 1)) := by
  constructor
  · intro h
    simp [Unicode.react, h]
  · intro ii hii
    refine ⟨by simp [Unicode.react, hii], ?_⟩
    have hidx : (u.lists.getD u.active_list emptyUList).index = some ii := by
      simpa [Unicode.activeList] using hii
    have hp : ii.list < u.active_list := hwf.back_lt u.active_list hact ii hidx
    obtain ⟨d, hd, hdepth⟩ := depth_total u.lists hwf.back_lt ii.list (by omega)
    refine ⟨d, ?_, ?_⟩
    · exact depthFrom_mono u.lists (ii.list + 1) u.lists.length _ d (by omega) hdepth
    · obtain ⟨L, hL⟩ : ∃ L, u.lists.length = L + 1 := ⟨u.lists.length - 1, by omega⟩
      have hstep : depthFrom u.lists L ((u.lists.getD ii.list emptyUList).index) = some d :=
        depthFrom_mono u.lists (ii.list + 1) L _ d (by omega) hdepth
      unfold listDepth
      rw [hidx, hL]
      simp only [depthFrom]
      rw [hstep]
      rfl

theorem on_cancel_spec_witness :
    exampleArena.react (fun _ => true) .cancel "typed text" =
      (⟨exampleArena.lists, 0⟩, "", .reload) ∧
    listDepth exampleArena.lists 0 = some 0 ∧
    listDepth exampleArena.lists 1 = some 1 := by
  have hact : exampleArena.active_list < exampleArena.lists.length := by
    simp [exampleArena]
  have hii : exampleArena.activeList.index = some ⟨0, 0⟩ := by
    simp [exampleArena, Unicode.activeList, List.getD]
  have h := (on_cancel_spec (fun _ => true) exampleArena "typed text"
    exampleArena_wf hact).2 ⟨0, 0⟩ hii
  obtain ⟨hreact, d, hd0, hd1⟩ := h
  have hz : listDepth exampleArena.lists (ItemIndex.mk 0 0).list = some 0 := by
    simp [exampleArena, listDepth, depthFrom, List.getD]
  rw [hz] at hd0
  obtain rfl : d = 0 := by simpa using hd0.symm
  exact ⟨hreact, by simpa [exampleArena] using hz, by simpa [exampleArena] using hd1⟩

theorem join_cons (a : String) (l : List String) :
    String.join (a :: l) = a ++ String.join l := by
  simp [String.join_eq]; rfl

theorem join_append (a b : List String) :
    String.join (a ++ b) = String.join a ++ String.join b := by
  simp [String.join_eq]; rfl

theorem flatMap_rev_pair (l : List String) :
    (l.flatMap fun n => [" / ", n]).reverse = l.reverse.flatMap fun n => [n, " / "] := by
  induction l with
  | nil => rfl
  | cons n rest ih => simp [List.flatMap_cons, List.flatMap_append, ih]

theorem joinSep_cons (sep n : String) (l : List String) (hl : l ≠ []) :
    joinSep sep (n :: l) = n ++ sep ++ joinSep sep l := by
  cases l with
  | nil => exact absurd rfl hl
  | cons a t => simp [joinSep]

theorem join_flatMap_pair (m : String) (ns : List String) :
    String.join (ns.flatMap fun n => [n, " / "]) ++ m = joinSep " / " (ns ++ [m]) := by
  induction ns with
  | nil => rfl
  | cons n rest ih =>
    rw [List.flatMap_cons, join_append, List.cons_append,
      joinSep_cons " / " n (rest ++ [m]) (by simp)]
    rw [← ih]
    show (n ++ (" / " ++ String.join [])) ++ String.join (rest.flatMap fun n => [n, " / "]) ++ m =
      n ++ " / " ++ (String.join (rest.flatMap fun n => [n, " / "]) ++ m)
    simp [String.join, String.append_assoc]

theorem ancestorChain_depth {A : Type} (lists : List (UList A))
    (idx : Option ItemIndex) (names : List String) (h : AncestorChain lists idx names) :
    ∀ fuel, names.length ≤ fuel → depthFrom lists fuel idx = some names.length := by
  induction h with
  | root => intro fuel _; cases fuel <;> simp [depthFrom]
  | step ii names hparent ih =>
    intro fuel hf
    rw [List.length_append, List.length_cons, List.length_nil] at hf
    obtain ⟨f, rfl⟩ : ∃ f, fuel = f + 1 := ⟨fuel - 1, by omega⟩
    simp only [depthFrom]
    rw [ih f (by omega)]
    simp

theorem message_go_chain {A : Type} (lists : List (UList A))
    (idx : Option ItemIndex) (names : List String) (h : AncestorChain lists idx names) :
    ∀ fuel, names.length ≤ fuel → ∀ parts, parts ≠ [] →
      message_go lists fuel idx parts =
        parts ++ names.reverse.flatMap fun n => [" / ", n] := by
  induction h with
  | root =>
    intro fuel _ parts _
    cases fuel <;> simp [message_go]
  | step ii names hparent ih =>
    intro fuel hf parts hparts
    rw [List.length_append, List.length_cons, List.length_nil] at hf
    obtain ⟨f, rfl⟩ : ∃ f, fuel = f + 1 := ⟨fuel - 1, by omega⟩
    obtain ⟨p, ps, rfl⟩ : ∃ p ps, parts = p :: ps := by
      cases parts with
      | nil => exact absurd rfl hparts
      | cons p ps => exact ⟨p, ps, rfl⟩
    simp only [message_go, List.isEmpty_cons, Bool.false_eq_true, if_false]
    rw [ih f (by omega) _ (by simp)]
    simp [List.flatMap_append]

theorem message_join_chain {A : Type} (lists : List (UList A))
    (idx : Option ItemIndex) (names : List String) (h : AncestorChain lists idx names) :
    ∀ fuel, names.length ≤ fuel →
      String.join (message_go lists fuel idx []).reverse = joinSep " / " names := by
  induction h with
  | root =>
    intro fuel _
    cases fuel <;> rfl
  | step ii names hparent ih =>
    intro fuel hf
    rw [List.length_append, List.length_cons, List.length_nil] at hf
    obtain ⟨f, rfl⟩ : ∃ f, fuel = f + 1 := ⟨fuel - 1, by omega⟩
    simp only [message_go, List.isEmpty_nil, if_true, List.nil_append]
    rw [message_go_chain lists _ names hparent f (by omega) _ (by simp)]
    rw [List.reverse_append, List.reverse_cons, List.reverse_nil, List.nil_append]
    rw [join_append]
    have hrev : (names.reverse.flatMap fun n => [" / ", n]).reverse =
        names.flatMap fun n => [n, " / "] := by
      rw [flatMap_rev_pair, List.reverse_reverse]
    rw [hrev]
    exact join_flatMap_pair _ names

/-- Claim C5: the breadcrumb message at the root list is the empty string,
and at any list it consists of exactly the ancestor items' `display_markup`
strings (one per nesting level, so their count equals the nesting depth),
joined by the separator in root-to-current order. -/
theorem breadcrumb_spec {A : Type} (u : Unicode A)
    (hwf : ArenaWF u.lists) (hact : u.active_list < u.lists.length) :
    (u.activeList.index = none → u.message = "") ∧
    (∀ names, AncestorChain u.lists u.activeList.index names →
      u.message = joinSep " / " names ∧
      listDepth u.lists u.active_list = some names.length) := by
  have hidx : u.activeList.index = (u.lists.getD u.active_list emptyUList).index := rfl
  constructor
  · intro h
    rw [Unicode.message, h]
    exact message_join_chain u.lists none [] .root _ (by simp)
  · intro names hchain
    have hlen : names.length ≤ u.active_list := by
      obtain ⟨d, hd, hdepth⟩ := depth_total u.lists hwf.back_lt u.active_list hact
      have h1 := ancestorChain_depth u.lists _ names hchain
        (names.length + u.active_list + 1) (by omega)
      have h2 := depthFrom_mono u.lists (u.active_list + 1)
        (names.length + u.active_list + 1) _ d (by omega) hdepth
      rw [hidx] at h1
      rw [h1] at h2
      have : names.length = d := by simpa using h2
      omega
    refine ⟨?_, ?_⟩
    · rw [Unicode.message]
      exact message_join_chain u.lists _ names hchain _ (by omega)
    · rw [listDepth, ← hidx]
      exact ancestorChain_depth u.lists _ names hchain u.lists.length (by omega)

theorem breadcrumb_spec_witness :
    exampleArena.message = "B" ∧ listDepth exampleArena.lists 1 = some 1 := by
  have hact : exampleArena.active_list < exampleArena.lists.length := by
    simp [exampleArena]
  have h0 : exampleArena.activeList.index = some ⟨0, 0⟩ := by
    simp [exampleArena, Unicode.activeList, List.getD]
  have hchain : AncestorChain exampleArena.lists exampleArena.activeList.index ["B"] := by
    rw [h0]
    exact AncestorChain.step ⟨0, 0⟩ [] AncestorChain.root
  have h := (breadcrumb_spec exampleArena exampleArena_wf hact).2 ["B"] hchain
  exact ⟨h.1, h.2⟩

theorem read_go_skip (fs : String → Config.ReadResult) (path : String) (pre : List String)
    (rest : List String)
    (hpre : ∀ b ∈ pre, fs (Config.pathJoin b path) = Config.ReadResult.notFound) :
    Config.Paths.read_go fs path (pre ++ rest) = Config.Paths.read_go fs path rest := by
  induction pre with
  | nil => rfl
  | cons b pre ih =>
    rw [List.cons_append, Config.Paths.read_go, hpre b (by simp)]
    exact ih fun b' hb' => hpre b' (by simp [hb'])

/-- Claim C6 counterexample: with bases `/basedir1` and `/basedir2` and a
relative reference missing from both, resolution fails with the error
`could not resolve path missing.ron`, which names the reference but does not
name any of the bases tried — contradicting the claim that the error names
the full set of bases. -/
theorem search_path_error_counterexample :
    Config.Paths.read_to_string (fun _ => .notFound) ⟨["/basedir1", "/basedir2"]⟩
      "missing.ron" = .error "could not resolve path missing.ron" ∧
    strContains "could not resolve path missing.ron" "/basedir1" = false ∧
    strContains "could not resolve path missing.ron" "/basedir2" = false := by
  refine ⟨rfl, by decide, by decide⟩

/-- Claim C6 as amended: an absolute reference is read directly, with every
I/O failure reported as an error; a relative reference is tried against the
ordered bases (the first base where a read succeeds wins, earlier not-found
bases are skipped); if it is found in no base, resolution fails with an error
naming the reference (but not the bases tried); and the bases built from the
environment are the user config home followed by each system config dir, each
with the `rofi-unicode` subdirectory appended. -/
theorem read_to_string_spec (fs : String → Config.ReadResult) (paths : Config.Paths)
    (path : String) :
    (Config.is_absolute path = true →
      (∀ s, fs path = .ok s → Config.Paths.read_to_string fs paths path = .ok s) ∧
      (∀ m, fs path = .otherError m → Config.Paths.read_to_string fs paths path =
        .error ("failed to read file " ++ path ++ ": " ++ m)) ∧
      (fs path = .notFound → Config.Paths.read_to_string fs paths path =
        .error ("failed to read file " ++ path ++ ": No such file or directory"))) ∧
    (Config.is_absolute path = false →
      (∀ pre b rest s, paths.bases = pre ++ b :: rest →
        (∀ b' ∈ pre, fs (Config.pathJoin b' path) = .notFound) →
        fs (Config.pathJoin b path) = .ok s →
        Config.Paths.read_to_string fs paths path = .ok s) ∧
      ((∀ b ∈ paths.bases, fs (Config.pathJoin b path) = .notFound) →
        Config.Paths.read_to_string fs paths path =
          .error ("could not resolve path " ++ path))) ∧
    (∀ env xdg dirs, env "XDG_CONFIG_HOME" = some xdg → env "XDG_CONFIG_DIRS" = some dirs →
      Config.Paths.from_env env =
        .ok ⟨(xdg :: Config.splitColon dirs).map fun d => Config.pathJoin d "rofi-unicode"⟩) := by
  refine ⟨?_, ?_, ?_⟩
  · intro habs
    refine ⟨?_, ?_, ?_⟩
    · intro s h
      simp [Config.Paths.read_to_string, habs, h]
    · intro m h
      simp [Config.Paths.read_to_string, habs, h]
    · intro h
      simp [Config.Paths.read_to_string, habs, h]
  · intro hrel
    constructor
    · intro pre b rest s hbases hpre hb
      rw [Config.Paths.read_to_string, if_neg (by simp [hrel]), hbases,
        read_go_skip fs path pre _ hpre, Config.Paths.read_go, hb]
    · intro hnone
      rw [Config.Paths.read_to_string, if_neg (by simp [hrel])]
      have : ∀ bs, (∀ b ∈ bs, fs (Config.pathJoin b path) = .notFound) →
          Config.Paths.read_go fs path bs =
            .error ("could not resolve path " ++ path) := by
        intro bs
        induction bs with
        | nil => intro _; rfl
        | cons b bs ih =>
          intro h
          rw [Config.Paths.read_go, h b (by simp)]
          exact ih fun b' hb' => h b' (by simp [hb'])
      exact this paths.bases hnone
  · intro env xdg dirs hx hd
    simp [Config.Paths.from_env, hx, hd]

theorem read_to_string_spec_witness :
    (Config.is_absolute "/abs.ron" = true ∧
      Config.Paths.read_to_string c6fs ⟨["/b1", "/b2"]⟩ "/abs.ron" = .ok "A") ∧
    (Config.is_absolute "x.ron" = false ∧
      Config.Paths.read_to_string c6fs ⟨["/b1", "/b2"]⟩ "x.ron" = .ok "X") ∧
    Config.Paths.read_to_string c6fs ⟨["/b1", "/b2"]⟩ "gone.ron" =
      .error "could not resolve path gone.ron" ∧
    Config.Paths.from_env c6env =
      .ok ⟨["/home/u/cfg/rofi-unicode", "/etc/xdg/rofi-unicode", "/opt/xdg/rofi-unicode"]⟩ := by
  have h1 := read_to_string_spec c6fs ⟨["/b1", "/b2"]⟩ "/abs.ron"
  have h2 := read_to_string_spec c6fs ⟨["/b1", "/b2"]⟩ "x.ron"
  have h3 := read_to_string_spec c6fs ⟨["/b1", "/b2"]⟩ "gone.ron"
  have h4 := (read_to_string_spec c6fs ⟨["/b1", "/b2"]⟩ "gone.ron").2.2 c6env
    "/home/u/cfg" "/etc/xdg:/opt/xdg" rfl rfl
  refine ⟨⟨rfl, (h1.1 rfl).1 "A" rfl⟩, ⟨rfl, ?_⟩, ?_, ?_⟩
  · exact (h2.2.1 rfl).1 ["/b1"] "/b2" [] "X" rfl (by decide) rfl
  · exact (h3.2.1 rfl).2 (by decide)
  · simpa using h4

/-- Claim C8 counterexample: a document whose top level holds the recognized
field `root` plus the reserved key `extends` is rejected by the `Base` parser
with an unknown-field error, so `extends` is not excepted from the
unknown-top-level-field rejection (it is reserved only inside node mappings). -/
theorem base_extends_rejected :
    Config.Base.deserialize (.map [("root", .map []), ("extends", .seq [])]) =
      .error "unknown field extends" := by
  simp [Config.Base.deserialize, Config.Base.visit_map, Config.UnresolvedItems.deserialize,
    Config.UnresolvedItems.visit_map]

theorem base_visit_map_unknown (entries : List (String × Config.RonValue)) :
    ∀ acc, (∃ e ∈ entries, e.1 ≠ "root") →
      ∃ msg, Config.Base.visit_map entries acc = .error msg := by
  induction entries with
  | nil =>
    intro acc h
    simp at h
  | cons e rest ih =>
    intro acc h
    obtain ⟨k, v⟩ := e
    by_cases hk : k = "root"
    · subst hk
      simp only [Config.Base.visit_map, if_pos rfl]
      cases acc with
      | some r => exact ⟨_, rfl⟩
      | none =>
        cases hdes : Config.UnresolvedItems.deserialize v with
        | error msg => exact ⟨msg, rfl⟩
        | ok root =>
          apply ih
          obtain ⟨e', he', hne⟩ := h
          rcases List.mem_cons.mp he' with h1 | h2
          · exact absurd (by rw [h1]) hne
          · exact ⟨e', h2, hne⟩
    · exact ⟨"unknown field " ++ k, by simp only [Config.Base.visit_map, if_neg hk]⟩

/-- Claim C8 as amended: parsing the root configuration document rejects any
top-level field other than `root` as a hard parse error — including the
reserved `extends` key, which is honored only inside node mappings, not at
the document's top level — while a document whose single top-level field is
`root` is accepted whenever its node parses. -/
theorem base_unknown_field_spec (entries : List (String × Config.RonValue)) :
    ((∃ e ∈ entries, e.1 ≠ "root") →
      ∃ msg, Config.Base.deserialize (.map entries) = .error msg) ∧
    (∀ v root, Config.UnresolvedItems.deserialize v = .ok root →
      Config.Base.deserialize (.map [("root", v)]) = .ok ⟨root⟩) := by
  constructor
  · intro h
    exact base_visit_map_unknown entries none h
  · intro v root hdes
    simp [Config.Base.deserialize, Config.Base.visit_map, hdes]

theorem base_unknown_field_spec_witness :
    (((("extends", Config.RonValue.seq []) ∈
        [("root", Config.RonValue.map []), ("extends", Config.RonValue.seq [])]) ∧
      "extends" ≠ "root") ∧
      (∃ msg, Config.Base.deserialize
        (.map [("root", Config.RonValue.map []), ("extends", Config.RonValue.seq [])]) =
          .error msg)) ∧
    (Config.UnresolvedItems.deserialize (Config.RonValue.map []) = .ok (.mk [] []) ∧
      Config.Base.deserialize (.map [("root", Config.RonValue.map [])]) =
        .ok ⟨.mk [] []⟩) := by
  have h := base_unknown_field_spec
    [("root", Config.RonValue.map []), ("extends", Config.RonValue.seq [])]
  have hdes : Config.UnresolvedItems.deserialize (Config.RonValue.map []) = .ok (.mk [] []) := by
    simp [Config.UnresolvedItems.deserialize, Config.UnresolvedItems.visit_map]
  refine ⟨⟨⟨by simp, by simp⟩, ?_⟩, hdes, ?_⟩
  · exact h.1 ⟨("extends", Config.RonValue.seq []), by simp, by simp⟩
  · exact (base_unknown_field_spec [("root", Config.RonValue.map [])]).2
      (Config.RonValue.map []) (.mk [] []) hdes

theorem getD_set_ne {α : Type} (l : List α) (x : α) (i j : Nat) (d : α) (h : i ≠ j) :
    (l.set i x).getD j d = l.getD j d := by
  simp [List.getD_eq_getElem?_getD, List.getElem?_set_ne h]

theorem getD_set_self {α : Type} (l : List α) (x : α) (i : Nat) (d : α) (h : i < l.length) :
    (l.set i x).getD i d = x := by
  simp [List.getD_eq_getElem?_getD, List.getElem?_set_self, h]

theorem register_go_nil {A : Type} (lists : List (UList A)) (list_index i : Nat) :
    register_go ([] : List (Config.Item A)) lists list_index i = (lists, []) := by
  simp [register_go]

theorem register_go_text {A : Type} (name : String) (attrs : List A) (markup t : String)
    (rest : List (Config.Item A)) (lists : List (UList A)) (list_index i : Nat) :
    register_go (Config.Item.mk name attrs markup (Config.Content.text t) :: rest)
        lists list_index i =
      ((register_go rest lists list_index (i + 1)).1,
        ⟨name, attrs, markup, Content.text t⟩ ::
          (register_go rest lists list_index (i + 1)).2) := by
  simp [register_go]

theorem register_go_items_eq {A : Type} (name : String) (attrs : List A) (markup : String)
    (nested rest : List (Config.Item A)) (lists : List (UList A)) (list_index i : Nat) :
    register_go (Config.Item.mk name attrs markup (Config.Content.items nested) :: rest)
        lists list_index i =
      ((register_go rest
          ((register_go nested (lists ++ [⟨some ⟨list_index, i⟩, []⟩]) lists.length 0).1.set
            lists.length
            ⟨some ⟨list_index, i⟩,
              (register_go nested (lists ++ [⟨some ⟨list_index, i⟩, []⟩]) lists.length 0).2⟩)
          list_index (i + 1)).1,
        ⟨name, attrs, markup, Content.list lists.length⟩ ::
          (register_go rest
            ((register_go nested (lists ++ [⟨some ⟨list_index, i⟩, []⟩]) lists.length 0).1.set
              lists.length
              ⟨some ⟨list_index, i⟩,
                (register_go nested (lists ++ [⟨some ⟨list_index, i⟩, []⟩]) lists.length 0).2⟩)
            list_index (i + 1)).2) := by
  simp [register_go]

theorem register_go_spec {A : Type} (items : List (Config.Item A)) (lists : List (UList A))
    (list_index i : Nat) :
    list_index < lists.length →
    (lists.length ≤ (register_go items lists list_index i).1.length) ∧
    (∀ j, j < lists.length →
      (register_go items lists list_index i).1.getD j emptyUList = lists.getD j emptyUList) ∧
    (∀ j, lists.length ≤ j → j < (register_go items lists list_index i).1.length →
      ∃ ii, ((register_go items lists list_index i).1.getD j emptyUList).index = some ii ∧
        ii.list < j ∧
        (ii.list = list_index ∨ lists.length ≤ ii.list) ∧
        (lists.length ≤ ii.list → ii.index <
          ((register_go items lists list_index i).1.getD ii.list emptyUList).items.length) ∧
        (ii.list = list_index → i ≤ ii.index ∧
          ii.index < i + (register_go items lists list_index i).2.length)) ∧
    (∀ it ∈ (register_go items lists list_index i).2, ∀ c, it.content = Content.list c →
      lists.length ≤ c ∧ c < (register_go items lists list_index i).1.length) ∧
    (∀ j, lists.length ≤ j → j < (register_go items lists list_index i).1.length →
      ∀ it ∈ ((register_go items lists list_index i).1.getD j emptyUList).items,
        ∀ c, it.content = Content.list c →
          j < c ∧ c < (register_go items lists list_index i).1.length) := by
  induction items, lists, list_index, i using register_go.induct with
  | case1 lists list_index i =>
    intro _
    refine ⟨?_, ?_, ?_, ?_, ?_⟩
    · simp [register_go_nil]
    · intro j _
      simp [register_go_nil]
    · intro j h1 h2
      simp only [register_go_nil] at h2
      omega
    · intro it hit
      simp [register_go_nil] at hit
    · intro j h1 h2
      simp only [register_go_nil] at h2
      omega
  | case2 name attrs markup t rest lists list_index i ih =>
    intro hli
    obtain ⟨P1, P2, C2, C3, C4⟩ := ih hli
    rcases hrest : register_go rest lists list_index (i + 1) with ⟨l1, o1⟩
    simp only [hrest] at P1 P2 C2 C3 C4
    refine ⟨?_, ?_, ?_, ?_, ?_⟩ <;> simp only [register_go_text, hrest]
    · exact P1
    · exact P2
    · intro j h1 h2
      obtain ⟨ii, hsome, hlt, hdisj, hslot, hown⟩ := C2 j h1 h2
      refine ⟨ii, hsome, hlt, hdisj, hslot, ?_⟩
      intro hill
      have := hown hill
      simp only [List.length_cons]
      omega
    · intro it hit c hc
      rcases List.mem_cons.mp hit with h1 | h2
      · subst h1
        simp at hc
      · exact C3 it h2 c hc
    · exact C4
  | case3 name attrs markup nested rest lists list_index i child_index lists1 rc lists2
      ihn ihnx ihr =>
    clear ihn
    intro hli
    have hl1 : lists1 = lists ++ [⟨some ⟨list_index, i⟩, []⟩] := rfl
    have hci : child_index = lists.length := rfl
    have hrc : rc = register_go nested lists1 child_index 0 := rfl
    have hl2 : lists2 = rc.1.set child_index ⟨some ⟨list_index, i⟩, rc.2⟩ := rfl
    rcases hC : register_go nested (lists ++ [⟨some ⟨list_index, i⟩, []⟩]) lists.length 0
      with ⟨lc, oc⟩
    rw [hl1, hci, hC] at hrc
    simp only [hrc, hci] at hl2
    obtain ⟨N1, N2, NC2, NC3, NC4⟩ := ihnx (by simp)
    simp only [hC, List.length_append, List.length_cons, List.length_nil] at N1 N2 NC2 NC3 NC4
    simp only [hl2] at ihr
    obtain ⟨R1, R2, RC2, RC3, RC4⟩ := ihr (by rw [List.length_set]; omega)
    rcases hR : register_go rest (lc.set lists.length ⟨some ⟨list_index, i⟩, oc⟩)
      list_index (i + 1) with ⟨lr, orr⟩
    simp only [hR, List.length_set] at R1 R2 RC2 RC3 RC4
    have hchild_lt : lists.length < lc.length := by omega
    have hfin_pre : ∀ j, j < lc.length →
        lr.getD j emptyUList =
          (lc.set lists.length ⟨some ⟨list_index, i⟩, oc⟩).getD j emptyUList := by
      intro j hj
      exact R2 j (by omega)
    have hfin_child : lr.getD lists.length emptyUList = ⟨some ⟨list_index, i⟩, oc⟩ := by
      rw [hfin_pre lists.length hchild_lt]
      exact getD_set_self lc _ lists.length emptyUList hchild_lt
    have hfin_mid : ∀ j, j ≠ lists.length → j < lc.length →
        lr.getD j emptyUList = lc.getD j emptyUList := by
      intro j hne hj
      rw [hfin_pre j hj]
      exact getD_set_ne lc _ lists.length j emptyUList (by omega)
    have hfin_lists : ∀ j, j < lists.length →
        lr.getD j emptyUList = lists.getD j emptyUList := by
      intro j hj
      rw [hfin_mid j (by omega) (by omega), N2 j (by omega)]
      exact List.getD_append _ _ _ _ hj
    refine ⟨?_, ?_, ?_, ?_, ?_⟩ <;> simp only [register_go_items_eq, hC, hR]
    · omega
    · exact hfin_lists
    · intro j h1 h2
      rcases Nat.lt_or_ge j lc.length with hj | hj
      · rcases Nat.eq_or_lt_of_le h1 with hje | hje
        · refine ⟨⟨list_index, i⟩, ?_, ?_, ?_, ?_, ?_⟩
          · rw [hje] at hfin_child
            rw [hfin_child]
          · simp only
            omega
          · left
            rfl
          · intro habs
            simp only at habs
            omega
          · intro _
            simp only [List.length_cons]
            omega
        · obtain ⟨ii, hsome, hlt, hdisj, hslot, hown⟩ := NC2 j (by omega) hj
          have hgd : lr.getD j emptyUList = lc.getD j emptyUList :=
            hfin_mid j (by omega) hj
          refine ⟨ii, by rw [hgd]; exact hsome, hlt, ?_, ?_, ?_⟩
          · right
            rcases hdisj with h | h <;> omega
          · intro hge
            rcases hdisj with h | h
            · have := hown h
              rw [h, hfin_child]
              simp only
              omega
            · have hslot2 := hslot (by omega)
              have heq2 : lr.getD ii.list emptyUList = lc.getD ii.list emptyUList :=
                hfin_mid ii.list (by omega) (by omega)
              rw [heq2]
              exact hslot2
          · intro habs
            rcases hdisj with h | h <;> omega
      · obtain ⟨ii, hsome, hlt, hdisj, hslot, hown⟩ := RC2 j (by omega) h2
        refine ⟨ii, hsome, hlt, ?_, ?_, ?_⟩
        · rcases hdisj with h | h
          · left
            exact h
          · right
            omega
        · intro hge
          rcases hdisj with h | h
          · omega
          · exact hslot (by omega)
        · intro hill
          have := hown hill
          simp only [List.length_cons]
          omega
    · intro it hit c hc
      rcases List.mem_cons.mp hit with h1 | h2
      · subst h1
        simp only at hc
        cases hc
        constructor
        · omega
        · omega
      · obtain ⟨hc1, hc2⟩ := RC3 it h2 c hc
        exact ⟨by omega, hc2⟩
    · intro j h1 h2 it hit c hc
      rcases Nat.lt_or_ge j lc.length with hj | hj
      · rcases Nat.eq_or_lt_of_le h1 with hje | hje
        · rw [hje] at hfin_child
          rw [hfin_child] at hit
          simp only at hit
          obtain ⟨hc1, hc2⟩ := NC3 it hit c hc
          constructor
          · omega
          · omega
        · have hgd : lr.getD j emptyUList = lc.getD j emptyUList :=
            hfin_mid j (by omega) hj
          rw [hgd] at hit
          obtain ⟨hc1, hc2⟩ := NC4 j (by omega) hj it hit c hc
          exact ⟨hc1, by omega⟩
      · exact RC4 j (by omega) h2 it hit c hc

theorem register_items_spec {A : Type} (items : List (Config.Item A)) (lists : List (UList A))
    (index : Option ItemIndex) :
    (register_items items lists index).2 = lists.length ∧
    lists.length < (register_items items lists index).1.length ∧
    (∀ j, j < lists.length →
      (register_items items lists index).1.getD j emptyUList = lists.getD j emptyUList) ∧
    ((register_items items lists index).1.getD lists.length emptyUList =
      ⟨index, (register_go items (lists ++ [⟨index, []⟩]) lists.length 0).2⟩) ∧
    (∀ j, lists.length < j → j < (register_items items lists index).1.length →
      ∃ ii, ((register_items items lists index).1.getD j emptyUList).index = some ii ∧
        lists.length ≤ ii.list ∧ ii.list < j ∧
        ii.index <
          ((register_items items lists index).1.getD ii.list emptyUList).items.length) ∧
    (∀ j, lists.length ≤ j → j < (register_items items lists index).1.length →
      ∀ it ∈ ((register_items items lists index).1.getD j emptyUList).items,
        ∀ c, it.content = Content.list c →
          j < c ∧ c < (register_items items lists index).1.length) := by
  obtain ⟨P1, P2, C2, C3, C4⟩ :=
    register_go_spec items (lists ++ [⟨index, []⟩]) lists.length 0 (by simp)
  rcases hG : register_go items (lists ++ [⟨index, []⟩]) lists.length 0 with ⟨lg, og⟩
  simp only [hG, List.length_append, List.length_cons, List.length_nil] at P1 P2 C2 C3 C4
  simp only [register_items, hG]
  have hll : lists.length < lg.length := by omega
  have f0 : ∀ j, j < lists.length →
      (lg.set lists.length ⟨index, og⟩).getD j emptyUList = lists.getD j emptyUList := by
    intro j hj
    rw [getD_set_ne lg _ lists.length j emptyUList (by omega), P2 j (by omega)]
    exact List.getD_append _ _ _ _ hj
  have fch : (lg.set lists.length ⟨index, og⟩).getD lists.length emptyUList = ⟨index, og⟩ :=
    getD_set_self lg _ lists.length emptyUList hll
  have fgt : ∀ j, lists.length < j →
      (lg.set lists.length ⟨index, og⟩).getD j emptyUList = lg.getD j emptyUList := by
    intro j hj
    exact getD_set_ne lg _ lists.length j emptyUList (by omega)
  refine ⟨trivial, ?_, f0, fch, ?_, ?_⟩
  · rw [List.length_set]
    omega
  · intro j h1 h2
    rw [List.length_set] at h2
    obtain ⟨ii, hsome, hlt, hdisj, hslot, hown⟩ := C2 j (by omega) h2
    rw [fgt j h1]
    refine ⟨ii, hsome, by omega, hlt, ?_⟩
    rcases hdisj with h | h
    · rw [h, fch]
      have := hown h
      simp only
      omega
    · rw [fgt ii.list (by omega)]
      exact hslot (by omega)
  · intro j h1 h2 it hit c hc
    rw [List.length_set] at h2
    rcases Nat.eq_or_lt_of_le h1 with hje | hje
    · rw [← hje] at hit
      rw [fch] at hit
      simp only at hit
      obtain ⟨hc1, hc2⟩ := C3 it hit c hc
      rw [List.length_set]
      omega
    · rw [fgt j hje] at hit
      obtain ⟨hc1, hc2⟩ := C4 j (by omega) h2 it hit c hc
      rw [List.length_set]
      omega

theorem try_init_wf {A : Type} (items : List (Config.Item A)) :
    ArenaWF (try_init items).lists := by
  obtain ⟨S1, S2, _, S4, S5, S6⟩ := register_items_spec items [] none
  rcases hR : register_items items [] none with ⟨lsts, root⟩
  simp only [hR, List.length_nil] at S1 S2 S4 S5 S6
  have hlists : (try_init items).lists = lsts := by
    simp [try_init, hR]
  rw [hlists]
  have hroot : lsts.getD 0 emptyUList = ⟨none, _⟩ := S4
  constructor
  · rw [hroot]
  · intro j h0 hl
    obtain ⟨ii, hsome, _, _, _⟩ := S5 j h0 hl
    rw [hsome]
    rfl
  · intro j hl ii hii
    cases Nat.eq_zero_or_pos j with
    | inl h0 =>
      subst h0
      rw [hroot] at hii
      simp at hii
    | inr h0 =>
      obtain ⟨ii2, hsome, _, hlt, _⟩ := S5 j h0 hl
      rw [hsome] at hii
      cases hii
      exact hlt
  · intro j hl ii hii
    cases Nat.eq_zero_or_pos j with
    | inl h0 =>
      subst h0
      rw [hroot] at hii
      simp at hii
    | inr h0 =>
      obtain ⟨ii2, hsome, _, _, hslot⟩ := S5 j h0 hl
      rw [hsome] at hii
      cases hii
      exact hslot
  · intro j hl it hit c hc
    exact S6 j (Nat.zero_le j) hl it hit c hc

/-- Claim C2: in every arena produced by construction, the root list sits at
index 0 and is the initial active list, it is the only list whose
back-reference is `None`, every `child_list_index` stored in an item is a
valid arena index strictly greater than the index of the holding list (all
recorded by `ArenaWF`, which also states that every back-reference points to
a strictly earlier list with a valid item slot), and following back-reference
links from any list reaches the root in finitely many steps — `listDepth`
returns `some d`, where `d` is by construction the number of steps of the
chain, i.e. the list's nesting depth, and `d ≤ j` rules out cycles. -/
theorem arena_invariants {A : Type} (items : List (Config.Item A)) :
    (try_init items).active_list = 0 ∧
    0 < (try_init items).lists.length ∧
    ArenaWF (try_init items).lists ∧
    (∀ j, j < (try_init items).lists.length →
      ∃ d, d ≤ j ∧ listDepth (try_init items).lists j = some d) := by
  obtain ⟨S1, S2, _⟩ := register_items_spec items ([] : List (UList A)) none
  have hwf := try_init_wf items
  refine ⟨?_, ?_, hwf, ?_⟩
  · simp [try_init]
    exact S1
  · simpa [try_init] using S2
  · intro j hj
    obtain ⟨d, hd, hdepth⟩ := depth_total (try_init items).lists hwf.back_lt j hj
    exact ⟨d, hd, depthFrom_mono _ (j + 1) _ _ d (by omega) hdepth⟩

theorem arena_invariants_witness :
    (try_init c2items).active_list = 0 ∧
    (0 < (try_init c2items).lists.length) ∧
    ((try_init c2items).lists.getD 0 emptyUList).index = none ∧
    (1 < (try_init c2items).lists.length ∧
      ∃ d, d ≤ 1 ∧ listDepth (try_init c2items).lists 1 = some d) := by
  have h := arena_invariants c2items
  have hlen : (try_init c2items).lists.length = 3 := by
    simp [c2items, try_init, register_items, register_go]
  exact ⟨h.1, h.2.1, h.2.2.1.root_none, by omega, h.2.2.2 1 (by omega)⟩

theorem except_map_eq_error {α β ε : Type} (x : Except ε α) (f : α → β) (e : ε) :
    x.map f = .error e ↔ x = .error e := by
  cases x <;> simp [Except.map]

theorem except_map_eq_ok {α β ε : Type} (x : Except ε α) (f : α → β) (b : β) :
    x.map f = .ok b ↔ ∃ a, x = .ok a ∧ f a = b := by
  cases x <;> simp [Except.map]

theorem resolve_acc {A : Type} (pm : String → Option (List A × String))
    (fs : String → Config.ReadResult) (ron : String → Except String Config.RonValue)
    (paths : Config.Paths) :
    (∀ fuel u r, Config.resolve pm fs ron paths fuel u r =
      (Config.resolve pm fs ron paths fuel u []).map fun t => r ++ t) ∧
    (∀ fuel exts r, Config.resolve_extends pm fs ron paths fuel exts r =
      (Config.resolve_extends pm fs ron paths fuel exts []).map fun t => r ++ t) ∧
    (∀ fuel items r, Config.resolve_direct pm fs ron paths fuel items r =
      (Config.resolve_direct pm fs ron paths fuel items []).map fun t => r ++ t) := by
  have H := Config.resolve.mutual_induct pm fs ron paths
    (fun fuel u _ => ∀ r, Config.resolve pm fs ron paths fuel u r =
      (Config.resolve pm fs ron paths fuel u []).map fun t => r ++ t)
    (fun fuel exts _ => ∀ r, Config.resolve_extends pm fs ron paths fuel exts r =
      (Config.resolve_extends pm fs ron paths fuel exts []).map fun t => r ++ t)
    (fun fuel items _ => ∀ r, Config.resolve_direct pm fs ron paths fuel items r =
      (Config.resolve_direct pm fs ron paths fuel items []).map fun t => r ++ t)
    ?p1 ?p2 ?p3 ?p4 ?p5 ?p6 ?p7 ?p8 ?p9 ?p10 ?p11 ?p12 ?p13 ?p14 ?p15
  · exact ⟨fun fuel u r => H.1 fuel u [] r,
      fun fuel exts r => H.2.1 fuel exts [] r,
      fun fuel items r => H.2.2 fuel items [] r⟩
  case p1 =>
    intro fuel exts direct resolved e hde ih3 r
    have h0 : Config.resolve_direct pm fs ron paths fuel direct [] = .error e := by
      have h := ih3 resolved
      rw [hde] at h
      exact (except_map_eq_error _ _ _).mp h.symm
    have h1 : Config.resolve_direct pm fs ron paths fuel direct r = .error e := by
      rw [ih3 r, h0]
      rfl
    simp only [Config.resolve]
    rw [h0, h1]
    simp [Except.map]
  case p2 =>
    intro fuel exts direct resolved resolved1 hdo ih3 ih2 r
    obtain ⟨d0, hd0, hres1⟩ : ∃ d0,
        Config.resolve_direct pm fs ron paths fuel direct [] = .ok d0 ∧
          resolved1 = resolved ++ d0 := by
      have h := ih3 resolved
      rw [hdo] at h
      obtain ⟨a, ha, hfa⟩ := (except_map_eq_ok _ _ _).mp h.symm
      exact ⟨a, ha, hfa.symm⟩
    have h1 : Config.resolve_direct pm fs ron paths fuel direct r = .ok (r ++ d0) := by
      rw [ih3 r, hd0]
      rfl
    simp only [Config.resolve]
    rw [h1, hd0]
    show Config.resolve_extends pm fs ron paths fuel exts (r ++ d0) =
      Except.map (fun t => r ++ t) (Config.resolve_extends pm fs ron paths fuel exts d0)
    rw [ih2 (r ++ d0), ih2 d0]
    cases Config.resolve_extends pm fs ron paths fuel exts [] <;>
      simp [Except.map, List.append_assoc]
  case p3 =>
    intro x resolved r
    simp [Config.resolve_extends, Except.map]
  case p4 =>
    intro ip tail x r
    simp [Config.resolve_extends, Except.map]
  case p5 =>
    intro fuel ip rest resolved e hread r
    simp only [Nat.succ_eq_add_one, Config.resolve_extends, hread]
    simp [Except.map]
  case p6 =>
    intro fuel ip rest resolved inc hread e hron r
    simp only [Nat.succ_eq_add_one, Config.resolve_extends, hread, hron]
    simp [Except.map]
  case p7 =>
    intro fuel ip rest resolved inc hread v hron e hdes r
    simp only [Nat.succ_eq_add_one, Config.resolve_extends, hread, hron, hdes]
    simp [Except.map]
  case p8 =>
    intro fuel ip rest resolved inc hread v hron included hdes e hres ih1 r
    have h0 : Config.resolve pm fs ron paths fuel included [] = .error e := by
      have h := ih1 resolved
      rw [hres] at h
      exact (except_map_eq_error _ _ _).mp h.symm
    have h1 : Config.resolve pm fs ron paths fuel included r = .error e := by
      rw [ih1 r, h0]
      rfl
    simp only [Nat.succ_eq_add_one, Config.resolve_extends, hread, hron, hdes, h0, h1]
    simp [Except.map]
  case p9 =>
    intro fuel ip rest resolved inc hread v hron included hdes resolved1 hres ih1 ih2 r
    obtain ⟨t0, ht0, hres1⟩ : ∃ t0,
        Config.resolve pm fs ron paths fuel included [] = .ok t0 ∧
          resolved1 = resolved ++ t0 := by
      have h := ih1 resolved
      rw [hres] at h
      obtain ⟨a, ha, hfa⟩ := (except_map_eq_ok _ _ _).mp h.symm
      exact ⟨a, ha, hfa.symm⟩
    have h1 : Config.resolve pm fs ron paths fuel included r = .ok (r ++ t0) := by
      rw [ih1 r, ht0]
      rfl
    simp only [Nat.succ_eq_add_one, Config.resolve_extends, hread, hron, hdes, h1, ht0]
    rw [ih2 (r ++ t0), ih2 t0]
    cases Config.resolve_extends pm fs ron paths (fuel + 1) rest [] <;>
      simp [Except.map, List.append_assoc]
  case p10 =>
    intro x resolved r
    simp [Config.resolve_direct, Except.map]
  case p11 =>
    intro fuel name t rest resolved hpm r
    simp only [Config.resolve_direct, hpm]
    simp [Except.map]
  case p12 =>
    intro fuel name t rest resolved attrs plain hpm ih3 r
    simp only [Config.resolve_direct, hpm, List.nil_append]
    rw [ih3 (r ++ [Config.Item.mk plain attrs name (Config.Content.text t)]),
      ih3 [Config.Item.mk plain attrs name (Config.Content.text t)]]
    cases Config.resolve_direct pm fs ron paths fuel rest [] <;>
      simp [Except.map, List.append_assoc]
  case p13 =>
    intro fuel name inner rest resolved e hres ih1 r
    simp only [Config.resolve_direct, hres]
    simp [Except.map]
  case p14 =>
    intro fuel name inner rest resolved resolved1 hres hpm ih1 r
    simp only [Config.resolve_direct, hres, hpm]
    simp [Except.map]
  case p15 =>
    intro fuel name inner rest resolved resolved1 hres attrs plain hpm ih1 ih3 r
    simp only [Config.resolve_direct, hres, hpm, List.nil_append]
    rw [ih3 (r ++ [Config.Item.mk plain attrs name (Config.Content.items resolved1)]),
      ih3 [Config.Item.mk plain attrs name (Config.Content.items resolved1)]]
    cases Config.resolve_direct pm fs ron paths fuel rest [] <;>
      simp [Except.map, List.append_assoc]

theorem resolve_extends_decomp {A : Type} (pm : String → Option (List A × String))
    (fs : String → Config.ReadResult) (ron : String → Except String Config.RonValue)
    (paths : Config.Paths) (fuel : Nat) :
    ∀ (exts : List String) (t : List (Config.Item A)),
      Config.resolve_extends pm fs ron paths fuel exts [] = .ok t →
      ∃ rs : List (List (Config.Item A)), rs.length = exts.length ∧
        (∀ k, k < exts.length →
          Config.resolve_extends pm fs ron paths fuel [exts.getD k ""] [] =
            .ok (rs.getD k [])) ∧
        t = rs.flatten := by
  intro exts
  induction exts with
  | nil =>
    intro t h
    simp only [Config.resolve_extends] at h
    obtain rfl : ([] : List (Config.Item A)) = t := by simpa using h
    exact ⟨[], rfl, fun k hk => absurd hk (Nat.not_lt_zero k), by simp⟩
  | cons e rest ih =>
    intro t h
    cases fuel with
    | zero => simp [Config.resolve_extends] at h
    | succ f =>
      rcases hread : Config.Paths.read_to_string fs paths e with m | inc
      · simp [Config.resolve_extends, hread] at h
      rcases hron : ron inc with m | v
      · simp [Config.resolve_extends, hread, hron] at h
      rcases hdes : Config.UnresolvedItems.deserialize v with m | included
      · simp [Config.resolve_extends, hread, hron, hdes] at h
      simp only [Config.resolve_extends, hread, hron, hdes] at h
      rcases hres : Config.resolve pm fs ron paths f included [] with m | r0
      · rw [hres] at h
        simp at h
      simp only [hres] at h
      rw [(resolve_acc pm fs ron paths).2.1 (f + 1) rest r0] at h
      obtain ⟨t2, ht2, rfl⟩ := (except_map_eq_ok _ _ _).mp h
      obtain ⟨rs2, hlen2, hpt2, rfl⟩ := ih t2 ht2
      refine ⟨r0 :: rs2, by simp [hlen2], ?_, rfl⟩
      intro k hk
      cases k with
      | zero =>
        simp only [List.getD_cons_zero]
        simp only [Config.resolve_extends, hread, hron, hdes, hres]
      | succ k2 =>
        simp only [List.getD_cons_succ]
        exact hpt2 k2 (by simpa using hk)

theorem resolve_direct_decomp {A : Type} (pm : String → Option (List A × String))
    (fs : String → Config.ReadResult) (ron : String → Except String Config.RonValue)
    (paths : Config.Paths) (fuel : Nat) :
    ∀ (items : List Config.UnresolvedItem) (d : List (Config.Item A)),
      Config.resolve_direct pm fs ron paths fuel items [] = .ok d →
      d.length = items.length ∧
      ∀ k, k < items.length →
        resolvesItem pm fs ron paths fuel (items.getD k dfltUItem) (d.getD k dfltCItem) := by
  intro items
  induction items with
  | nil =>
    intro d h
    simp only [Config.resolve_direct] at h
    obtain rfl : ([] : List (Config.Item A)) = d := by simpa using h
    exact ⟨rfl, fun k hk => absurd hk (Nat.not_lt_zero k)⟩
  | cons ui rest ih =>
    intro d h
    obtain ⟨name, c⟩ := ui
    cases c with
    | text t =>
      rcases hpm : pm name with _ | p
      · simp [Config.resolve_direct, hpm] at h
      obtain ⟨attrs, plain⟩ := p
      simp only [Config.resolve_direct, hpm, List.nil_append] at h
      rw [(resolve_acc pm fs ron paths).2.2 fuel rest
        [Config.Item.mk plain attrs name (Config.Content.text t)]] at h
      obtain ⟨d2, hd2, rfl⟩ := (except_map_eq_ok _ _ _).mp h
      obtain ⟨hlen, hpt⟩ := ih d2 hd2
      refine ⟨by simp [hlen], ?_⟩
      intro k hk
      cases k with
      | zero =>
        simp only [List.getD_cons_zero, List.singleton_append]
        exact ⟨attrs, plain, hpm, rfl, rfl, rfl, rfl⟩
      | succ k2 =>
        simp only [List.getD_cons_succ, List.singleton_append]
        exact hpt k2 (by simpa using hk)
    | items inner =>
      rcases hres : Config.resolve pm fs ron paths fuel inner [] with m | innerItems
      · simp [Config.resolve_direct, hres] at h
      rcases hpm : pm name with _ | p
      · simp [Config.resolve_direct, hres, hpm] at h
      obtain ⟨attrs, plain⟩ := p
      simp only [Config.resolve_direct, hres, hpm, List.nil_append] at h
      rw [(resolve_acc pm fs ron paths).2.2 fuel rest
        [Config.Item.mk plain attrs name (Config.Content.items innerItems)]] at h
      obtain ⟨d2, hd2, rfl⟩ := (except_map_eq_ok _ _ _).mp h
      obtain ⟨hlen, hpt⟩ := ih d2 hd2
      refine ⟨by simp [hlen], ?_⟩
      intro k hk
      cases k with
      | zero =>
        simp only [List.getD_cons_zero, List.singleton_append]
        exact ⟨attrs, plain, hpm, rfl, rfl, rfl, hres⟩
      | succ k2 =>
        simp only [List.getD_cons_succ, List.singleton_append]
        exact hpt k2 (by simpa using hk)

/-- Claim C1: a successful resolution of a node is exactly the resolved
direct entries, in source order and in one-to-one correspondence with the
direct items (so colliding display names stay separate entries and nothing
is de-duplicated), followed by the recursively resolved items of each
`extends` fragment in listed order (each fragment resolving exactly as it
would alone, so the law applies recursively); with no `extends` the result
is exactly the resolved direct entries. -/
theorem resolve_concat_spec {A : Type} (pm : String → Option (List A × String))
    (fs : String → Config.ReadResult) (ron : String → Except String Config.RonValue)
    (paths : Config.Paths) (fuel : Nat) (exts : List String)
    (direct : List Config.UnresolvedItem) (out : List (Config.Item A))
    (h : Config.resolve pm fs ron paths fuel (.mk exts direct) [] = .ok out) :
    ∃ (d : List (Config.Item A)) (rs : List (List (Config.Item A))),
      Config.resolve_direct pm fs ron paths fuel direct [] = .ok d ∧
      d.length = direct.length ∧
      (∀ k, k < direct.length →
        resolvesItem pm fs ron paths fuel (direct.getD k dfltUItem) (d.getD k dfltCItem)) ∧
      rs.length = exts.length ∧
      (∀ k, k < exts.length →
        Config.resolve_extends pm fs ron paths fuel [exts.getD k ""] [] =
          .ok (rs.getD k [])) ∧
      out = d ++ rs.flatten ∧
      (exts = [] → out = d) := by
  rcases hd : Config.resolve_direct pm fs ron paths fuel direct [] with m | d
  · simp [Config.resolve, hd] at h
  simp only [Config.resolve, hd] at h
  rw [(resolve_acc pm fs ron paths).2.1 fuel exts d] at h
  obtain ⟨t, ht, rfl⟩ := (except_map_eq_ok _ _ _).mp h
  obtain ⟨hlen, hpt⟩ := resolve_direct_decomp pm fs ron paths fuel direct d hd
  obtain ⟨rs, hrslen, hrspt, rfl⟩ := resolve_extends_decomp pm fs ron paths fuel exts t ht
  refine ⟨d, rs, rfl, hlen, hpt, hrslen, hrspt, rfl, ?_⟩
  intro he
  subst he
  have hrs : rs = [] := List.length_eq_zero.mp (by simpa using hrslen)
  subst hrs
  simp

theorem resolve_concat_spec_witness :
    (Config.resolve c1pm c1fs c1ron c1paths 1
      (.mk ["/f.ron"] [.mk "A" (.text "x")]) [] =
        .ok [Config.Item.mk "A" [] "A" (.text "x"),
          Config.Item.mk "Z" [] "Z" (.text "z")]) ∧
    ∃ (d : List (Config.Item Nat)) (rs : List (List (Config.Item Nat))),
      Config.resolve_direct c1pm c1fs c1ron c1paths 1 [.mk "A" (.text "x")] [] = .ok d ∧
      d.length = 1 ∧
      (∀ k, k < 1 → resolvesItem c1pm c1fs c1ron c1paths 1
        ([Config.UnresolvedItem.mk "A" (.text "x")].getD k dfltUItem) (d.getD k dfltCItem)) ∧
      rs.length = 1 ∧
      (∀ k, k < 1 → Config.resolve_extends c1pm c1fs c1ron c1paths 1
        [["/f.ron"].getD k ""] [] = .ok (rs.getD k [])) ∧
      [Config.Item.mk "A" [] "A" (Config.Content.text "x"),
        Config.Item.mk "Z" [] "Z" (Config.Content.text "z")] = d ++ rs.flatten := by
  have habs : Config.is_absolute "/f.ron" = true := rfl
  have hres : Config.resolve c1pm c1fs c1ron c1paths 1
      (.mk ["/f.ron"] [.mk "A" (.text "x")]) [] =
        .ok [Config.Item.mk "A" [] "A" (.text "x"),
          Config.Item.mk "Z" [] "Z" (.text "z")] := by
    simp [Config.resolve, Config.resolve_direct, Config.resolve_extends, c1pm, c1fs, c1ron,
      c1paths, Config.Paths.read_to_string, habs, Config.UnresolvedItems.deserialize,
      Config.UnresolvedItems.visit_map, Config.UnresolvedContent.deserialize,
      Config.MapKey.deserialize]
  refine ⟨hres, ?_⟩
  obtain ⟨d, rs, h1, h2, h3, h4, h5, h6, _⟩ :=
    resolve_concat_spec c1pm c1fs c1ron c1paths 1 ["/f.ron"] [.mk "A" (.text "x")] _ hres
  exact ⟨d, rs, h1, by simpa using h2, by simpa using h3, by simpa using h4,
    by simpa using h5, h6⟩

theorem visit_map_collect :
    ∀ (entries : List (String × Config.RonValue)) (E : List String)
      (D : List Config.UnresolvedItem) (u : Config.UnresolvedItems),
      Config.UnresolvedItems.visit_map entries E D = .ok u →
      ∃ es ds, collectEntries entries = some (es, ds) ∧ u = .mk (E ++ es) (D ++ ds) := by
  intro entries
  induction entries with
  | nil =>
    intro E D u h
    simp only [Config.UnresolvedItems.visit_map] at h
    obtain rfl : Config.UnresolvedItems.mk E D = u := by simpa using h
    exact ⟨[], [], rfl, by simp⟩
  | cons e rest ih =>
    intro E D u h
    obtain ⟨k, v⟩ := e
    by_cases hk : k = "extends"
    · subst hk
      rcases hsl : Config.deserializeStringList v with m | exts
      · simp [Config.UnresolvedItems.visit_map, Config.MapKey.deserialize, hsl] at h
      simp only [Config.UnresolvedItems.visit_map, Config.MapKey.deserialize, if_pos rfl,
        hsl] at h
      obtain ⟨es, ds, hc, rfl⟩ := ih (E ++ exts) D u h
      refine ⟨exts ++ es, ds, ?_, by simp [List.append_assoc]⟩
      simp [collectEntries, hsl, hc]
    · rcases hcd : Config.UnresolvedContent.deserialize v with m | c
      · simp [Config.UnresolvedItems.visit_map, Config.MapKey.deserialize, hk, hcd] at h
      simp only [Config.UnresolvedItems.visit_map, Config.MapKey.deserialize, if_neg hk,
        hcd] at h
      obtain ⟨es, ds, hc, rfl⟩ := ih E (D ++ [.mk k c]) u h
      refine ⟨es, .mk k c :: ds, ?_, by simp [List.append_assoc]⟩
      simp [collectEntries, hk, hcd, hc]

theorem collect_names :
    ∀ (entries : List (String × Config.RonValue)) (es : List String)
      (ds : List Config.UnresolvedItem),
      collectEntries entries = some (es, ds) →
      ds.map Config.UnresolvedItem.name =
        (entries.filter fun e => e.1 != "extends").map Prod.fst := by
  intro entries
  induction entries with
  | nil =>
    intro es ds h
    simp only [collectEntries] at h
    obtain ⟨rfl, rfl⟩ : [] = es ∧ [] = ds := by simpa using h.symm
    rfl
  | cons e rest ih =>
    intro es ds h
    obtain ⟨k, v⟩ := e
    by_cases hk : k = "extends"
    · subst hk
      rcases hsl : Config.deserializeStringList v with m | exts
      · simp [collectEntries, hsl] at h
      · rcases hc : collectEntries rest with _ | p
        · simp [collectEntries, hsl, hc] at h
        · obtain ⟨es2, ds2⟩ := p
          simp [collectEntries, hsl, hc] at h
          obtain ⟨rfl, rfl⟩ := h
          simp only [List.filter_cons, bne_self_eq_false, Bool.false_eq_true, if_false]
          exact ih es2 ds2 hc
    · rcases hcd : Config.UnresolvedContent.deserialize v with m | c
      · simp [collectEntries, hk, hcd] at h
      · rcases hc : collectEntries rest with _ | p
        · simp [collectEntries, hk, hcd, hc] at h
        · obtain ⟨es2, ds2⟩ := p
          simp [collectEntries, hk, hcd, hc] at h
          obtain ⟨rfl, rfl⟩ := h
          have hkb : (k != "extends") = true := by simpa using hk
          simp only [List.filter_cons, hkb, if_true, List.map_cons,
            Config.UnresolvedItem.name]
          exact congrArg (List.cons k) (ih es2 ds2 hc)

theorem deserialize_extends_spec (entries : List (String × Config.RonValue))
    (u : Config.UnresolvedItems)
    (h : Config.UnresolvedItems.deserialize (.map entries) = .ok u) :
    (∃ es ds, collectEntries entries = some (es, ds) ∧ u = .mk es ds ∧
      ds.map Config.UnresolvedItem.name =
        (entries.filter fun e => e.1 != "extends").map Prod.fst) ∧
    (∀ (A : Type) (pm : String → Option (List A × String)) (fs : String → Config.ReadResult)
        (ron : String → Except String Config.RonValue) (paths : Config.Paths) (fuel : Nat)
        (out : List (Config.Item A)),
      Config.resolve pm fs ron paths fuel u [] = .ok out →
      ∃ (d t : List (Config.Item A)),
        Config.resolve_direct pm fs ron paths fuel u.direct [] = .ok d ∧
        out = d ++ t) := by
  simp only [Config.UnresolvedItems.deserialize] at h
  obtain ⟨es, ds, hc, rfl⟩ := visit_map_collect entries [] [] u h
  constructor
  · exact ⟨es, ds, hc, by simp, collect_names entries es ds hc⟩
  · intro A pm fs ron paths fuel out hres
    simp only [List.nil_append] at hres ⊢
    simp only [Config.UnresolvedItems.direct]
    rcases hd : Config.resolve_direct pm fs ron paths fuel ds [] with m | d
    · simp [Config.resolve, hd] at hres
    · simp only [Config.resolve, hd] at hres
      rw [(resolve_acc pm fs ron paths).2.1 fuel es d] at hres
      obtain ⟨t, ht, rfl⟩ := (except_map_eq_ok _ _ _).mp hres
      exact ⟨d, t, rfl, rfl⟩

theorem deserialize_extends_spec_witness :
    (Config.UnresolvedItems.deserialize (.map c9entries) =
      .ok (.mk ["e1", "e2"] [.mk "A" (.text "x")])) ∧
    (∃ es ds, collectEntries c9entries = some (es, ds) ∧
      Config.UnresolvedItems.mk ["e1", "e2"] [.mk "A" (.text "x")] = .mk es ds ∧
      ds.map Config.UnresolvedItem.name =
        (c9entries.filter fun e => e.1 != "extends").map Prod.fst) := by
  have hdes : Config.UnresolvedItems.deserialize (.map c9entries) =
      .ok (.mk ["e1", "e2"] [.mk "A" (.text "x")]) := by
    simp [Config.UnresolvedItems.deserialize, Config.UnresolvedItems.visit_map,
      Config.UnresolvedContent.deserialize, Config.MapKey.deserialize,
      Config.deserializeStringList, Config.deserializeStrings, c9entries]
  exact ⟨hdes, (deserialize_extends_spec c9entries _ hdes).1⟩

end RofiUnicode
